import Mathlib

/-!
# Verification of the owanimo core engine

A shallow embedding of the owanimo library (grouping engine, gravity
compaction, pop / nuisance selection, table-driven scoring, and the quick
simulation loop), together with theorems checking the natural-language
specification against it.

Handles are an abstract type `H` with decidable equality.  A `HashSet` of
handles is modelled as a `Finset H`; the groups collection (`Groups` /
`RefGroups`, a `Vec` of sets) is a `List (Finset H)`.  Fallible code
(slice indexing that can panic) is modelled with `Option`: `none` is a
panic.  `u64` arithmetic is modelled as `Nat` arithmetic reduced modulo
`2 ^ 64` at every operation, matching wrapping semantics.
-/

namespace Owanimo

variable {H : Type} [DecidableEq H]

/-- The `Board` capability interface from `lib.rs`: an enumeration of
tiles, a neighbor enumeration, and the `connects` predicate.  Iterators
are modelled as lists (their enumeration order). -/
structure BoardG (H : Type) where
  tiles : List H
  neighbors : H → List H
  connects : H → H → Bool

/-- `Vec::extract_if(.., p).next()` from `Groups::find`: remove and
return the first element satisfying `p`, leaving the rest in order. -/
def extractFirst {α : Type} (p : α → Bool) : List α → Option α × List α
  | [] => (none, [])
  | x :: xs =>
    if p x then (some x, xs)
    else
      let r := extractFirst p xs
      (r.1, x :: r.2)

/-- The neighbor loop of `owanimo_grouper`: for each neighbor `n` with
`conn n`, extract the first group containing `n` from the collection and
union it into the current group (`me_group.extend(x)`). -/
def mergeNbrs (conn : H → Bool) : List H → Finset H → List (Finset H) →
    Finset H × List (Finset H)
  | [], mg, gs => (mg, gs)
  | n :: ns, mg, gs =>
    if conn n then
      match extractFirst (fun g => decide (n ∈ g)) gs with
      | (some x, gs1) => mergeNbrs conn ns (mg ∪ x) gs1
      | (none, gs1) => mergeNbrs conn ns mg gs1
    else mergeNbrs conn ns mg gs

/-- One iteration of the `for tile in self.tiles()` loop of
`owanimo_grouper`: build `me_group` from the tile and its connecting
neighbors' groups, then push it. -/
def grouperStep (B : BoardG H) (gs : List (Finset H)) (t : H) : List (Finset H) :=
  let r := mergeNbrs (B.connects t) (B.neighbors t) {t} gs
  r.2 ++ [r.1]

/-- `Board::owanimo_grouper` from `lib.rs`. -/
def owanimo_grouper (B : BoardG H) : List (Finset H) :=
  B.tiles.foldl (grouperStep B) []

/-- One neighbor edge that `connects`: the relation along which groups
are merged. -/
def stepRel (B : BoardG H) (x y : H) : Prop :=
  y ∈ B.neighbors x ∧ B.connects x y = true

/-- `stepRel` restricted to endpoints inside a set of visited tiles. -/
def stepRelIn (B : BoardG H) (vs : Finset H) (x y : H) : Prop :=
  x ∈ vs ∧ y ∈ vs ∧ stepRel B x y

/-- Two handles lie in a common group of the collection. -/
def SameG (gs : List (Finset H)) (x y : H) : Prop :=
  ∃ g ∈ gs, x ∈ g ∧ y ∈ g

/-- Invariant of `owanimo_grouper`'s main loop: after visiting the set
`vs` of tiles, the groups collection is a partition of `vs` into the
connected components of the `connects`-neighbor graph induced on `vs`. -/
def GrouperInv (B : BoardG H) (vs : Finset H) (gs : List (Finset H)) : Prop :=
  (∀ g ∈ gs, g.Nonempty) ∧
    gs.Pairwise Disjoint ∧
    (∀ x, (∃ g ∈ gs, x ∈ g) ↔ x ∈ vs) ∧
    (∀ g ∈ gs, ∀ x ∈ g, ∀ y ∈ g, Relation.ReflTransGen (stepRelIn B vs) x y) ∧
    (∀ x y, x ∈ vs → Relation.ReflTransGen (stepRelIn B vs) x y → SameG gs x y)

/-- A small concrete board on three handles: a path 0 - 1 - 2 with all
tiles connecting.  Used to instantiate the grouping theorems. -/
def boardW3 : BoardG (Fin 3) where
  tiles := [0, 1, 2]
  neighbors := fun x => if x = 0 then [1] else if x = 1 then [0, 2] else [1]
  connects := fun _ _ => true

/-! ## Gravity engine (`gravity.rs`)

`GravityBoard::fall`'s per-column scan is embedded as a fuel-indexed
loop over the column list.  A Rust panic (out-of-bounds slice index) is
modelled as `none`; the rotation's slicing preconditions are guarded the
same way.  `compactColumn` supplies more fuel than the scan can consume,
which the compaction theorem proves sufficient. -/

/-- The scanning `while` loops of `fall`: the offset of the first
element of the list satisfying `p` (the list's length if none does). -/
def firstIdx (p : H → Bool) : List H → Nat
  | [] => 0
  | x :: xs => if p x then 0 else firstIdx p xs + 1

/-- `while`-scan from index `i` of `col`: first index `≥ i` whose
element satisfies `p`, or `col.length`. -/
def findFrom (p : H → Bool) (col : List H) (i : Nat) : Nat :=
  i + firstIdx p (col.drop i)

/-- `col[a..j].rotate_left(k)`: rotate the sub-range `[a, j)` of the
column left by `k` positions. -/
def rotateSeg (col : List H) (a j k : Nat) : List H :=
  col.take a ++
    (((col.drop a).take (j - a)).drop k ++ ((col.drop a).take (j - a)).take k) ++
    col.drop j

/-- The outer `'outer: loop` of `fall`, from loop state `(col, index,
did_fall)`.  The first scan (`cursor_b`) is `findFrom (!isAir)`, the
second (`index` after the non-air run) is `findFrom isAir`; the range
`[cursor_a, index)` is rotated left by `cursor_b - cursor_a` and the
index is pulled back by the same amount.  `none` models a panicking
slice access (reading `col[index]` at or past the end, or a rotation
whose slice bounds are invalid). -/
def compactLoop (isAir : H → Bool) : Nat → List H → Nat → Bool → Option (List H × Bool)
  | 0, _, _, _ => none
  | fuel + 1, col, i, df =>
    if i < col.length then
      if findFrom (fun x => !isAir x) col i = col.length then some (col, df)
      else
        if i ≤ findFrom isAir col (findFrom (fun x => !isAir x) col i) ∧
            findFrom isAir col (findFrom (fun x => !isAir x) col i) ≤ col.length ∧
            findFrom (fun x => !isAir x) col i - i ≤
              findFrom isAir col (findFrom (fun x => !isAir x) col i) - i then
          if findFrom isAir col (findFrom (fun x => !isAir x) col i) -
              (findFrom (fun x => !isAir x) col i - i) = col.length then
            some (rotateSeg col i
                (findFrom isAir col (findFrom (fun x => !isAir x) col i))
                (findFrom (fun x => !isAir x) col i - i),
              df || decide (findFrom (fun x => !isAir x) col i ≠ i))
          else
            compactLoop isAir fuel
              (rotateSeg col i
                (findFrom isAir col (findFrom (fun x => !isAir x) col i))
                (findFrom (fun x => !isAir x) col i - i))
              (findFrom isAir col (findFrom (fun x => !isAir x) col i) -
                (findFrom (fun x => !isAir x) col i - i))
              (df || decide (findFrom (fun x => !isAir x) col i ≠ i))
        else none
    else none

/-- One whole-column application of the per-column compaction, started
at the bottom with no fall recorded. -/
def compactColumn (isAir : H → Bool) (col : List H) : Option (List H × Bool) :=
  compactLoop isAir (col.length + 1) col 0 false

/-- The specification value of compaction: all non-air handles, in
order, followed by all air handles, in order. -/
def compactSpec (isAir : H → Bool) (col : List H) : List H :=
  col.filter (fun x => !isAir x) ++ col.filter (fun x => isAir x)

/-- `fall` over all columns, threading the shared `did_fall` flag.  A
panic in any column's scan (`none`) aborts the whole `fall`. -/
def fallColumns (isAir : H → Bool) : List (List H) → Bool → Option (List (List H) × Bool)
  | [], df => some ([], df)
  | c :: cs, df =>
    (compactLoop isAir (c.length + 1) c 0 df).bind fun p =>
      (fallColumns isAir cs p.2).bind fun q => some (p.1 :: q.1, q.2)

/-- `GravityBoard::fall` for a column-major board. -/
def fall (isAir : H → Bool) (cols : List (List H)) : Option (List (List H) × Bool) :=
  fallColumns isAir cols false

/-! ## Pop and nuisance selection (`lib.rs`, `standard.rs`) -/

/-- `RefGroups::owanimo_pop`: keep the groups with at least
`pieces_to_pop` members. -/
def owanimo_pop (pieces_to_pop : Nat) (gs : List (Finset H)) : List (Finset H) :=
  gs.filter (fun g => decide (pieces_to_pop ≤ g.card))

/-- `RefGroups::test`: does some group of the view contain the handle? -/
def testGroups (gs : List (Finset H)) (n : H) : Bool :=
  gs.any (fun g => decide (n ∈ g))

/-- `RefGroups::owanimo_nuisance`: the original selection followed by a
fresh singleton group for every enumerated nuisance tile with a
neighbor inside the original selection (only the original selection is
consulted — no transitive spread). -/
def owanimo_nuisance (B : BoardG H) (nuisance : H → Bool)
    (sel : List (Finset H)) : List (Finset H) :=
  sel ++ ((B.tiles.filter nuisance).filter
    (fun p => (B.neighbors p).any (fun n => testGroups sel n))).map
      (fun p => ({p} : Finset H))

/-! ## Scoring (`standard.rs`), with wrapping `u64` arithmetic -/

/-- The modulus of Rust's wrapping `u64` arithmetic. -/
def u64Mod : Nat := 2 ^ 64

/-- Wrapping `u64` addition. -/
def u64add (a b : Nat) : Nat := (a + b) % u64Mod

/-- Wrapping `u64` multiplication. -/
def u64mul (a b : Nat) : Nat := (a * b) % u64Mod

/-- A `Scorer<B>`: a pure function of the board state and the popped
group view, returning a `u64`. -/
def ScorerFn (S K : Type) : Type := S → List (Finset K) → Nat

/-- The free function `score` of `standard.rs`: the `(base,
multiplier)` pair, displayed as `A x B`. -/
def scoreParts {S : Type} (board : S) (popped : List (Finset H))
    (pieces_cleared point_bonus chain_power color_bonus group_bonus :
      ScorerFn S H) : Nat × Nat :=
  (u64add (u64mul 10 (pieces_cleared board popped)) (point_bonus board popped),
    u64add (u64add (chain_power board popped) (color_bonus board popped))
      (group_bonus board popped))

/-- `StandardScorer::score`: calls `score` with its `group_bonus` field
in the `color_bonus` slot and its `color_bonus` field in the
`group_bonus` slot (as the source does — the multiplier sum is
unaffected), then multiplies the two components. -/
def standardScore {S : Type}
    (pieces_cleared point_bonus chain_power color_bonus group_bonus :
      ScorerFn S H) (board : S) (popped : List (Finset H)) : Nat :=
  u64mul
    (scoreParts board popped pieces_cleared point_bonus chain_power
      group_bonus color_bonus).1
    (scoreParts board popped pieces_cleared point_bonus chain_power
      group_bonus color_bonus).2

/-- `TrivialPiecesCleared`: the sum of the popped groups' sizes. -/
def trivialPiecesCleared {S : Type} : ScorerFn S H :=
  fun _ popped => (popped.map (fun g => g.card)).foldl u64add 0

/-- The always-zero scorer (`impl Scorer for ()`). -/
def zeroScorer {S : Type} : ScorerFn S H := fun _ _ => 0

/-- The constant scorer (`impl Scorer for u64`). -/
def constScorer {S : Type} (k : Nat) : ScorerFn S H := fun _ _ => k

/-- `table.get(i).or(table.last()).unwrap_or(&0)`: the clamped table
lookup shared by the color-bonus table, the group-bonus table, and the
chain-power table. -/
def tableLookup (t : List Nat) (i : Nat) : Nat :=
  ((t.get? i).or t.getLast?).getD 0

/-- The first tile of a group — hashbrown's `iter().next()` returns an
unspecified element, modelled here as the minimum under a linear order
on handles. -/
def firstTile [LinearOrder H] (g : Finset H) : Option H :=
  if h : g.Nonempty then some (g.min' h) else none

/-- The set of distinct colors among the popped groups' first tiles
(`ColorBonusTable`'s `colors` set), counted. -/
def numColors {C : Type} [DecidableEq C] [LinearOrder H] (color : H → Option C)
    (popped : List (Finset H)) : Nat :=
  (popped.filterMap (fun g => (firstTile g).bind color)).toFinset.card

/-- `ColorBonusTable::score`. -/
def colorBonusScore {C : Type} [DecidableEq C] [LinearOrder H]
    (table : List Nat) (color : H → Option C)
    (popped : List (Finset H)) : Nat :=
  tableLookup table (numColors color popped)

/-- `GroupBonusTable::score`. -/
def groupBonusScore (table : List Nat) (consider : Finset H → Bool)
    (popped : List (Finset H)) : Nat :=
  popped.foldl
    (fun acc g => if consider g then u64add acc (tableLookup table g.card) else acc) 0

/-! ## Quick simulation (`quicksim.rs`) -/

/-- The capability bundle a `QuickSimBoard` needs: `Board`,
`NuisanceBoard`, `BanishBoard`, and `GravityBoard`.  The `BanishBoard`
trait itself is declared outside the sources; `banish` is its one
operation.  `banish_comm` states that banishing two tiles commutes —
required to give the `for &p in g.iter()` loop over an (unordered)
hash-set group a well-defined meaning. -/
structure SimOps (S K : Type) where
  tiles : S → List K
  neighbors : S → K → List K
  connects : S → K → K → Bool
  nuisance : S → K → Bool
  banish : S → K → S
  banish_comm : ∀ (s : S) (p q : K),
    banish (banish s p) q = banish (banish s q) p
  fall : S → S × Bool

/-- The `Board` view of a `SimOps` state. -/
def SimOps.boardAt {S : Type} (ops : SimOps S H) (s : S) : BoardG H :=
  ⟨ops.tiles s, ops.neighbors s, ops.connects s⟩

/-- Banish every tile of one popped group (`for &p in g.iter() {
self.banish(p); }`), well defined on the unordered group by
`banish_comm`. -/
def SimOps.banishGroup {S : Type} (ops : SimOps S H) (s : S) (g : Finset H) : S :=
  @Multiset.foldr H S (fun p st => ops.banish st p)
    ⟨fun a b st => ops.banish_comm st b a⟩ s g.val

/-- One pass of `quick_sim`'s loop: settle gravity, group, pop, apply
the nuisance rule, score with the chain-power table entry for the
current chain count, count the cleared pieces, banish every popped
tile.  Returns `(this_score, this_pieces_cleared, the board after the
pass)`. -/
def qsimStep {S : Type} (ops : SimOps S H) (pieces_to_pop : Nat)
    (pc pb cb gb : ScorerFn S H) (chain_power_table : List Nat)
    (chain : Nat) (s : S) : Nat × Nat × S :=
  let s1 := (ops.fall s).1
  let pg := owanimo_nuisance (ops.boardAt s1) (ops.nuisance s1)
    (owanimo_pop pieces_to_pop (owanimo_grouper (ops.boardAt s1)))
  (standardScore pc pb (constScorer (tableLookup chain_power_table chain))
      cb gb s1 pg,
    pc s1 pg,
    pg.foldl (fun st g => ops.banishGroup st g) s1)

/-- The aggregate result of `quick_sim`. -/
structure SimResult where
  score : Nat
  chain : Nat
  pieces_cleared : Nat
  max_pieces_at_once : Nat
deriving DecidableEq

/-- The `loop` of `quick_sim`, with explicit fuel (`none`: the fuel ran
out before a pass cleared zero tiles). -/
def qsimLoop {S : Type} (ops : SimOps S H) (pieces_to_pop : Nat)
    (pc pb cb gb : ScorerFn S H) (chain_power_table : List Nat) :
    Nat → Nat → Nat → Nat → Nat → S → Option (SimResult × S)
  | 0, _, _, _, _, _ => none
  | fuel + 1, score, chain, pieces, maxp, s =>
    if (qsimStep ops pieces_to_pop pc pb cb gb chain_power_table chain s).2.1 = 0 then
      some (⟨u64add score
          (qsimStep ops pieces_to_pop pc pb cb gb chain_power_table chain s).1,
        chain,
        u64add pieces
          (qsimStep ops pieces_to_pop pc pb cb gb chain_power_table chain s).2.1,
        max maxp
          (qsimStep ops pieces_to_pop pc pb cb gb chain_power_table chain s).2.1⟩,
        (qsimStep ops pieces_to_pop pc pb cb gb chain_power_table chain s).2.2)
    else
      qsimLoop ops pieces_to_pop pc pb cb gb chain_power_table fuel
        (u64add score
          (qsimStep ops pieces_to_pop pc pb cb gb chain_power_table chain s).1)
        (u64add chain 1)
        (u64add pieces
          (qsimStep ops pieces_to_pop pc pb cb gb chain_power_table chain s).2.1)
        (max maxp
          (qsimStep ops pieces_to_pop pc pb cb gb chain_power_table chain s).2.1)
        (qsimStep ops pieces_to_pop pc pb cb gb chain_power_table chain s).2.2

/-- `QuickSimBoard::quick_sim`, parameters in source order, with
explicit fuel. -/
def quickSim {S : Type} (ops : SimOps S H) (pieces_to_pop : Nat)
    (pc pb : ScorerFn S H) (chain_power_table : List Nat)
    (cb gb : ScorerFn S H) (fuel : Nat) (s : S) : Option (SimResult × S) :=
  qsimLoop ops pieces_to_pop pc pb cb gb chain_power_table fuel 0 0 0 0 s

/-- The per-pass `(this_score, this_pieces_cleared)` trace of a
`quick_sim` run (every executed pass, the terminating zero-clear pass
included), with the final board. -/
def qsimTrace {S : Type} (ops : SimOps S H) (pieces_to_pop : Nat)
    (pc pb cb gb : ScorerFn S H) (chain_power_table : List Nat) :
    Nat → Nat → S → Option (List (Nat × Nat) × S)
  | 0, _, _ => none
  | fuel + 1, chain, s =>
    if (qsimStep ops pieces_to_pop pc pb cb gb chain_power_table chain s).2.1 = 0 then
      some ([((qsimStep ops pieces_to_pop pc pb cb gb chain_power_table chain s).1,
        (qsimStep ops pieces_to_pop pc pb cb gb chain_power_table chain s).2.1)],
        (qsimStep ops pieces_to_pop pc pb cb gb chain_power_table chain s).2.2)
    else
      (qsimTrace ops pieces_to_pop pc pb cb gb chain_power_table fuel
        (u64add chain 1)
        (qsimStep ops pieces_to_pop pc pb cb gb chain_power_table chain s).2.2).map
          fun r =>
            (((qsimStep ops pieces_to_pop pc pb cb gb chain_power_table chain s).1,
              (qsimStep ops pieces_to_pop pc pb cb gb chain_power_table chain s).2.1)
                :: r.1, r.2)

/-- A concrete one-dimensional board for the quick-sim claims: the
state is the list of live tiles, no tile connects to any other,
`banish` erases the tile from the list, gravity does nothing. -/
def listOps : SimOps (List Nat) Nat where
  tiles := fun s => s
  neighbors := fun _ _ => []
  connects := fun _ _ _ => false
  nuisance := fun _ _ => false
  banish := fun s p => s.erase p
  banish_comm := fun s p q => List.erase_comm p q s
  fall := fun s => (s, false)

/-- The trivial board with no tiles at all. -/
def unitOps : SimOps Unit Nat where
  tiles := fun _ => []
  neighbors := fun _ _ => []
  connects := fun _ _ _ => false
  nuisance := fun _ _ => false
  banish := fun _ _ => ()
  banish_comm := fun _ _ _ => rfl
  fall := fun _ => ((), false)

/-- `boardW3` with its tiles enumerated in the opposite order. -/
def boardW3r : BoardG (Fin 3) :=
  { boardW3 with tiles := [2, 1, 0] }

section ExtractFirst

variable {α : Type} {p : α → Bool}

theorem extractFirst_none {l l' : List α}
    (h : extractFirst p l = (none, l')) : l' = l ∧ ∀ a ∈ l, p a = false := by
  induction l generalizing l' with
  | nil =>
    simp [extractFirst] at h
    simp [h]
  | cons x xs ih =>
    by_cases hx : p x
    · simp [extractFirst, hx] at h
    · simp only [extractFirst, hx, if_false] at h
      obtain ⟨h1, h2⟩ := Prod.mk.injEq .. ▸ h
      have hx2 : extractFirst p xs = (none, (extractFirst p xs).2) := by
        rw [← h1]
      have := ih hx2
      constructor
      · rw [← h2, this.1]
      · intro a ha
        rcases List.mem_cons.1 ha with rfl | ha
        · simpa using hx
        · exact this.2 a ha

theorem extractFirst_some {l l' : List α} {x : α}
    (h : extractFirst p l = (some x, l')) :
    p x = true ∧ x ∈ l ∧ l.Perm (x :: l') := by
  induction l generalizing l' with
  | nil => simp [extractFirst] at h
  | cons a as ih =>
    by_cases ha : p a
    · simp only [extractFirst, ha, if_true, Prod.mk.injEq, Option.some.injEq] at h
      obtain ⟨rfl, rfl⟩ := h
      exact ⟨ha, List.mem_cons_self .., List.Perm.refl _⟩
    · simp only [extractFirst, ha, if_false] at h
      obtain ⟨h1, h2⟩ := Prod.mk.injEq .. ▸ h
      cases hr : extractFirst p as with
      | mk o rest =>
        cases o with
        | none => rw [hr] at h1; simp at h1
        | some y =>
          rw [hr] at h1 h2
          simp only [Option.some.injEq] at h1
          subst h1
          have := ih hr
          refine ⟨this.1, List.mem_cons_of_mem _ this.2.1, ?_⟩
          rw [← h2]
          exact (List.Perm.cons a this.2.2).trans (List.Perm.swap y a rest)
end ExtractFirst

theorem extractFirst_some_sublist {α : Type} {p : α → Bool} {l l' : List α} {x : α}
    (h : extractFirst p l = (some x, l')) : l'.Sublist l := by
  induction l generalizing l' with
  | nil => simp [extractFirst] at h
  | cons a as ih =>
    by_cases ha : p a
    · simp only [extractFirst, ha, if_true, Prod.mk.injEq, Option.some.injEq] at h
      obtain ⟨rfl, rfl⟩ := h
      exact List.sublist_cons_self a as
    · simp only [extractFirst, ha, if_false] at h
      obtain ⟨h1, h2⟩ := Prod.mk.injEq .. ▸ h
      cases hr : extractFirst p as with
      | mk o rest =>
        cases o with
        | none => rw [hr] at h1; simp at h1
        | some y =>
          rw [hr] at h1 h2
          simp only [Option.some.injEq] at h1
          subst h1
          rw [← h2]
          exact List.Sublist.cons₂ a (ih hr)

section MergeNbrs

variable {conn : H → Bool} {ns : List H} {mg : Finset H} {gs : List (Finset H)}

theorem mergeNbrs_mono : mg ⊆ (mergeNbrs conn ns mg gs).1 := by
  induction ns generalizing mg gs with
  | nil => simp [mergeNbrs]
  | cons n ns ih =>
    by_cases hc : conn n
    · rcases hx : extractFirst (fun g => decide (n ∈ g)) gs with ⟨o, gs1⟩
      cases o with
      | none =>
        simpa [mergeNbrs, hc, hx] using ih
      | some x =>
        simp only [mergeNbrs, hc, if_true, hx]
        exact Finset.Subset.trans Finset.subset_union_left ih
    · simpa [mergeNbrs, hc] using ih

theorem mergeNbrs_sublist : (mergeNbrs conn ns mg gs).2.Sublist gs := by
  induction ns generalizing mg gs with
  | nil => simp [mergeNbrs]
  | cons n ns ih =>
    by_cases hc : conn n
    · rcases hx : extractFirst (fun g => decide (n ∈ g)) gs with ⟨o, gs1⟩
      cases o with
      | none =>
        have := (extractFirst_none hx).1
        subst this
        simpa [mergeNbrs, hc, hx] using ih
      | some x =>
        simp only [mergeNbrs, hc, if_true, hx]
        exact List.Sublist.trans ih (extractFirst_some_sublist hx)
    · simpa [mergeNbrs, hc] using ih

theorem mergeNbrs_union (a : H) :
    (a ∈ (mergeNbrs conn ns mg gs).1 ∨ ∃ g ∈ (mergeNbrs conn ns mg gs).2, a ∈ g) ↔
      (a ∈ mg ∨ ∃ g ∈ gs, a ∈ g) := by
  induction ns generalizing mg gs with
  | nil => simp [mergeNbrs]
  | cons n ns ih =>
    by_cases hc : conn n
    · rcases hx : extractFirst (fun g => decide (n ∈ g)) gs with ⟨o, gs1⟩
      cases o with
      | none =>
        have := (extractFirst_none hx).1
        subst this
        simpa [mergeNbrs, hc, hx] using ih
      | some x =>
        simp only [mergeNbrs, hc, if_true, hx]
        rw [ih]
        have hperm := (extractFirst_some hx).2.2
        constructor
        · rintro (hu | hg)
          · rcases Finset.mem_union.1 hu with h | h
            · exact Or.inl h
            · exact Or.inr ⟨x, hperm.mem_iff.2 (List.mem_cons_self ..), h⟩
          · obtain ⟨g, hg1, hg2⟩ := hg
            exact Or.inr ⟨g, hperm.mem_iff.2 (List.mem_cons_of_mem _ hg1), hg2⟩
        · rintro (hm | ⟨g, hg1, hg2⟩)
          · exact Or.inl (Finset.mem_union_left _ hm)
          · rcases List.mem_cons.1 (hperm.mem_iff.1 hg1) with rfl | hmem
            · exact Or.inl (Finset.mem_union_right _ hg2)
            · exact Or.inr ⟨g, hmem, hg2⟩
    · simpa [mergeNbrs, hc] using ih

theorem mergeNbrs_disjoint (hd : gs.Pairwise Disjoint)
    (hmg : ∀ g ∈ gs, Disjoint mg g) :
    (mergeNbrs conn ns mg gs).2.Pairwise Disjoint ∧
      ∀ g ∈ (mergeNbrs conn ns mg gs).2, Disjoint (mergeNbrs conn ns mg gs).1 g := by
  induction ns generalizing mg gs with
  | nil => exact ⟨hd, hmg⟩
  | cons n ns ih =>
    by_cases hc : conn n
    · rcases hx : extractFirst (fun g => decide (n ∈ g)) gs with ⟨o, gs1⟩
      cases o with
      | none =>
        have := (extractFirst_none hx).1
        subst this
        simp only [mergeNbrs, hc, if_true, hx]
        exact ih hd hmg
      | some x =>
        simp only [mergeNbrs, hc, if_true, hx]
        have hperm := (extractFirst_some hx).2.2
        have hd' : (x :: gs1).Pairwise Disjoint :=
          (hperm.pairwise_iff fun h => h.symm).1 hd
        have hdx := (List.pairwise_cons.1 hd').1
        have hd1 := (List.pairwise_cons.1 hd').2
        refine ih hd1 ?_
        intro g hg
        refine Finset.disjoint_union_left.2 ⟨?_, hdx g hg⟩
        exact hmg g (hperm.mem_iff.2 (List.mem_cons_of_mem _ hg))
    · simp only [mergeNbrs, hc, if_false]
      exact ih hd hmg

theorem mergeNbrs_connected {R : H → H → Prop} {t : H}
    (hgs : ∀ g ∈ gs, ∀ x ∈ g, ∀ y ∈ g, Relation.ReflTransGen R x y)
    (hmg : ∀ x ∈ mg, Relation.ReflTransGen R t x)
    (hns : ∀ n ∈ ns, conn n = true → (∃ g ∈ gs, n ∈ g) → R t n) :
    ∀ x ∈ (mergeNbrs conn ns mg gs).1, Relation.ReflTransGen R t x := by
  induction ns generalizing mg gs with
  | nil => exact hmg
  | cons n ns ih =>
    by_cases hc : conn n
    · rcases hx : extractFirst (fun g => decide (n ∈ g)) gs with ⟨o, gs1⟩
      cases o with
      | none =>
        have := (extractFirst_none hx).1
        subst this
        simp only [mergeNbrs, hc, if_true, hx]
        exact ih hgs hmg fun m hm hcm he => hns m (List.mem_cons_of_mem _ hm) hcm he
      | some x =>
        simp only [mergeNbrs, hc, if_true, hx]
        obtain ⟨hpx, hxgs, _⟩ := extractFirst_some hx
        have hnx : n ∈ x := of_decide_eq_true hpx
        refine ih (fun g hg => hgs g ((extractFirst_some_sublist hx).mem hg)) ?_
          (fun m hm hcm ⟨g, hg, hmg'⟩ => hns m (List.mem_cons_of_mem _ hm) hcm
            ⟨g, (extractFirst_some_sublist hx).mem hg, hmg'⟩)
        intro a ha
        rcases Finset.mem_union.1 ha with h | h
        · exact hmg a h
        · exact (Relation.ReflTransGen.single
            (hns n (List.mem_cons_self ..) hc ⟨x, hxgs, hnx⟩)).trans (hgs x hxgs n hnx a h)
    · simp only [mergeNbrs, hc, if_false]
      exact ih hgs hmg fun m hm hcm => hns m (List.mem_cons_of_mem _ hm) hcm

theorem mergeNbrs_kept_or_absorbed :
    ∀ g ∈ gs, g ∈ (mergeNbrs conn ns mg gs).2 ∨ g ⊆ (mergeNbrs conn ns mg gs).1 := by
  induction ns generalizing mg gs with
  | nil => exact fun g hg => Or.inl hg
  | cons n ns ih =>
    by_cases hc : conn n
    · rcases hx : extractFirst (fun g => decide (n ∈ g)) gs with ⟨o, gs1⟩
      cases o with
      | none =>
        have := (extractFirst_none hx).1
        subst this
        simpa [mergeNbrs, hc, hx] using ih
      | some x =>
        simp only [mergeNbrs, hc, if_true, hx]
        intro g hg
        have hperm := (extractFirst_some hx).2.2
        rcases List.mem_cons.1 (hperm.mem_iff.1 hg) with rfl | hmem
        · exact Or.inr (Finset.Subset.trans Finset.subset_union_right mergeNbrs_mono)
        · exact ih g hmem
    · simpa [mergeNbrs, hc] using ih

theorem mergeNbrs_absorbs (hd : gs.Pairwise Disjoint) :
    ∀ n ∈ ns, conn n = true → ∀ g ∈ gs, n ∈ g → g ⊆ (mergeNbrs conn ns mg gs).1 := by
  induction ns generalizing mg gs with
  | nil => simp
  | cons n0 ns ih =>
    intro n hn hcn g hg hng
    by_cases hc : conn n0
    · rcases hx : extractFirst (fun g => decide (n0 ∈ g)) gs with ⟨o, gs1⟩
      cases o with
      | none =>
        have he := extractFirst_none hx
        obtain rfl := he.1
        simp only [mergeNbrs, hc, if_true, hx]
        rcases List.mem_cons.1 hn with rfl | hn'
        · exact absurd (decide_eq_true hng) (by simp [he.2 g hg])
        · exact ih hd n hn' hcn g hg hng
      | some x =>
        simp only [mergeNbrs, hc, if_true, hx]
        obtain ⟨hpx, _, hperm⟩ := extractFirst_some hx
        have hnx : n0 ∈ x := of_decide_eq_true hpx
        have hd' : (x :: gs1).Pairwise Disjoint :=
          (hperm.pairwise_iff fun h => h.symm).1 hd
        rcases List.mem_cons.1 (hperm.mem_iff.1 hg) with rfl | hmem
        · exact Finset.Subset.trans Finset.subset_union_right mergeNbrs_mono
        · rcases List.mem_cons.1 hn with rfl | hn'
          · exact absurd hng
              (Finset.disjoint_left.1 ((List.pairwise_cons.1 hd').1 g hmem) hnx)
          · exact ih (List.pairwise_cons.1 hd').2 n hn' hcn g hmem hng
    · simp only [mergeNbrs, hc, if_false]
      rcases List.mem_cons.1 hn with rfl | hn'
      · exact absurd hcn (by simp [hc])
      · exact ih hd n hn' hcn g hg hng

end MergeNbrs

section GrouperInvariant

variable {B : BoardG H}

theorem pairwise_disjoint_unique {l : List (Finset H)} (hd : l.Pairwise Disjoint)
    {g g' : Finset H} (hg : g ∈ l) (hg' : g' ∈ l) {a : H} (ha : a ∈ g)
    (ha' : a ∈ g') : g = g' := by
  induction l with
  | nil => cases hg
  | cons b bs ih =>
    obtain ⟨hb, hbs⟩ := List.pairwise_cons.1 hd
    rcases List.mem_cons.1 hg with rfl | hgm <;> rcases List.mem_cons.1 hg' with rfl | hgm'
    · rfl
    · exact absurd ha' (Finset.disjoint_left.1 (hb g' hgm') ha)
    · exact absurd ha' (Finset.disjoint_right.1 (hb g hgm) ha)
    · exact ih hbs hgm hgm'

theorem stepRelIn_mono {vs vs' : Finset H} (h : vs ⊆ vs') {x y : H} :
    stepRelIn B vs x y → stepRelIn B vs' x y :=
  fun ⟨hx, hy, hs⟩ => ⟨h hx, h hy, hs⟩

theorem stepRelIn_symmetric
    (hn : ∀ x y, x ∈ B.neighbors y ↔ y ∈ B.neighbors x)
    (hc : ∀ x y, B.connects x y = B.connects y x) {vs : Finset H} :
    Symmetric (stepRelIn B vs) := by
  rintro x y ⟨hx, hy, hnb, hcn⟩
  exact ⟨hy, hx, (hn x y).2 hnb, (hc y x).trans hcn⟩

theorem grouperInv_step
    (hn : ∀ x y, x ∈ B.neighbors y ↔ y ∈ B.neighbors x)
    (hc : ∀ x y, B.connects x y = B.connects y x)
    {vs : Finset H} {gs : List (Finset H)} {t : H} (ht : t ∉ vs)
    (hinv : GrouperInv B vs gs) :
    GrouperInv B (insert t vs) (grouperStep B gs t) := by
  obtain ⟨h1, h2, h3, h4, h5⟩ := hinv
  have hvs : vs ⊆ insert t vs := Finset.subset_insert t vs
  have htg : ∀ g ∈ gs, t ∉ g := fun g hg htg => ht ((h3 t).1 ⟨g, hg, htg⟩)
  have hmgdisj : ∀ g ∈ gs, Disjoint ({t} : Finset H) g := fun g hg => by
    simpa [Finset.disjoint_singleton_left] using htg g hg
  have hdisj := @mergeNbrs_disjoint H _ (B.connects t) (B.neighbors t) {t} gs
    h2 hmgdisj
  have hsub : (mergeNbrs (B.connects t) (B.neighbors t) {t} gs).2.Sublist gs :=
    mergeNbrs_sublist
  have htin : t ∈ (mergeNbrs (B.connects t) (B.neighbors t) {t} gs).1 :=
    mergeNbrs_mono (Finset.mem_singleton_self t)
  have h4' : ∀ g ∈ gs, ∀ x ∈ g, ∀ y ∈ g,
      Relation.ReflTransGen (stepRelIn B (insert t vs)) x y :=
    fun g hg x hx y hy => (h4 g hg x hx y hy).mono fun _ _ => stepRelIn_mono hvs
  have hmgconn : ∀ x ∈ (mergeNbrs (B.connects t) (B.neighbors t) {t} gs).1,
      Relation.ReflTransGen (stepRelIn B (insert t vs)) t x := by
    refine mergeNbrs_connected h4' (fun x hx => ?_) (fun n hnb hcn he => ?_)
    · obtain rfl := Finset.mem_singleton.1 hx
      exact Relation.ReflTransGen.refl
    · exact ⟨Finset.mem_insert_self t vs,
        Finset.mem_insert_of_mem ((h3 n).1 he), hnb, hcn⟩
  constructor
  · -- new groups are nonempty
    intro g hg
    rcases List.mem_append.1 hg with hg | hg
    · exact h1 g (hsub.mem hg)
    · obtain rfl := List.mem_singleton.1 hg
      exact ⟨t, htin⟩
  constructor
  · -- new groups are pairwise disjoint
    refine List.pairwise_append.2 ⟨hdisj.1, List.pairwise_singleton _ _, ?_⟩
    intro g hg g' hg'
    obtain rfl := List.mem_singleton.1 hg'
    exact (hdisj.2 g hg).symm
  constructor
  · -- union of the groups is the visited set
    intro x
    have hu := @mergeNbrs_union H _ (B.connects t) (B.neighbors t) {t} gs x
    constructor
    · rintro ⟨g, hg, hx⟩
      rcases List.mem_append.1 hg with hg | hg
      · rcases hu.1 (Or.inr ⟨g, hg, hx⟩) with hx' | hx'
        · exact Finset.mem_insert.2 (Or.inl (Finset.mem_singleton.1 hx'))
        · exact Finset.mem_insert_of_mem ((h3 x).1 hx')
      · obtain rfl := List.mem_singleton.1 hg
        rcases hu.1 (Or.inl hx) with hx' | hx'
        · exact Finset.mem_insert.2 (Or.inl (Finset.mem_singleton.1 hx'))
        · exact Finset.mem_insert_of_mem ((h3 x).1 hx')
    · intro hx
      rcases Finset.mem_insert.1 hx with rfl | hx'
      · exact ⟨_, List.mem_append_right _ (List.mem_singleton_self _), htin⟩
      · rcases hu.2 (Or.inr ((h3 x).2 hx')) with hm | ⟨g, hg, hgx⟩
        · exact ⟨_, List.mem_append_right _ (List.mem_singleton_self _), hm⟩
        · exact ⟨g, List.mem_append_left _ hg, hgx⟩
  have hpw : (grouperStep B gs t).Pairwise Disjoint := by
    refine List.pairwise_append.2 ⟨hdisj.1, List.pairwise_singleton _ _, ?_⟩
    intro g hg g' hg'
    obtain rfl := List.mem_singleton.1 hg'
    exact (hdisj.2 g hg).symm
  constructor
  · -- each group is internally connected within the new visited set
    intro g hg x hx y hy
    rcases List.mem_append.1 hg with hg | hg
    · exact h4' g (hsub.mem hg) x hx y hy
    · obtain rfl := List.mem_singleton.1 hg
      exact ((Relation.ReflTransGen.symmetric (stepRelIn_symmetric hn hc)
        (hmgconn x hx))).trans (hmgconn y hy)
  · -- completeness: connected visited tiles share a group
    have hrefl : ∀ x ∈ insert t vs, SameG (grouperStep B gs t) x x := by
      intro x hx
      rcases Finset.mem_insert.1 hx with rfl | hx'
      · exact ⟨_, List.mem_append_right _ (List.mem_singleton_self _), htin, htin⟩
      · obtain ⟨g, hg, hgx⟩ := (h3 x).2 hx'
        rcases @mergeNbrs_kept_or_absorbed H _ (B.connects t) (B.neighbors t)
            {t} gs g hg with hk | hk
        · exact ⟨g, List.mem_append_left _ hk, hgx, hgx⟩
        · exact ⟨_, List.mem_append_right _ (List.mem_singleton_self _),
            hk hgx, hk hgx⟩
    have hedge : ∀ u w, stepRelIn B (insert t vs) u w →
        SameG (grouperStep B gs t) u w := by
      rintro u w ⟨hu, hw, hnb, hcn⟩
      rcases Finset.mem_insert.1 hu with rfl | hu' <;>
        rcases Finset.mem_insert.1 hw with rfl | hw'
      · exact hrefl w (Finset.mem_insert_self w vs)
      · -- u = t, w visited: w's group is absorbed into me_group
        obtain ⟨g, hg, hgw⟩ := (h3 w).2 hw'
        have habs := @mergeNbrs_absorbs H _ (B.connects u) (B.neighbors u)
          {u} gs h2 w hnb hcn g hg hgw
        exact ⟨_, List.mem_append_right _ (List.mem_singleton_self _),
          htin, habs hgw⟩
      · -- u visited, w = t: symmetric case
        obtain ⟨g, hg, hgu⟩ := (h3 u).2 hu'
        have hnb' : u ∈ B.neighbors w := (hn u w).2 hnb
        have hcn' : B.connects w u = true := (hc w u).trans hcn
        have habs := @mergeNbrs_absorbs H _ (B.connects w) (B.neighbors w)
          {w} gs h2 u hnb' hcn' g hg hgu
        exact ⟨_, List.mem_append_right _ (List.mem_singleton_self _),
          habs hgu, htin⟩
      · -- both already visited: they already shared a group
        obtain ⟨g, hg, hgu, hgw⟩ := h5 u w hu'
          (Relation.ReflTransGen.single ⟨hu', hw', hnb, hcn⟩)
        rcases @mergeNbrs_kept_or_absorbed H _ (B.connects t) (B.neighbors t)
            {t} gs g hg with hk | hk
        · exact ⟨g, List.mem_append_left _ hk, hgu, hgw⟩
        · exact ⟨_, List.mem_append_right _ (List.mem_singleton_self _),
            hk hgu, hk hgw⟩
    intro x y hx hpath
    induction hpath with
    | refl => exact hrefl x hx
    | tail hxb hby ih =>
      obtain ⟨g1, hg1, hx1, hb1⟩ := ih
      obtain ⟨g2, hg2, hb2, hy2⟩ := hedge _ _ hby
      obtain rfl := pairwise_disjoint_unique hpw hg1 hg2 hb1 hb2
      exact ⟨g1, hg1, hx1, hy2⟩

theorem grouperInv_fold
    (hn : ∀ x y, x ∈ B.neighbors y ↔ y ∈ B.neighbors x)
    (hc : ∀ x y, B.connects x y = B.connects y x) :
    ∀ (rest : List H) (vs : Finset H) (gs : List (Finset H)),
      rest.Nodup → (∀ a ∈ rest, a ∉ vs) → GrouperInv B vs gs →
      GrouperInv B (vs ∪ rest.toFinset) (rest.foldl (grouperStep B) gs) := by
  intro rest
  induction rest with
  | nil => intro vs gs _ _ hinv; simpa using hinv
  | cons t rest ih =>
    intro vs gs hnd hfresh hinv
    obtain ⟨hnt, hnd'⟩ := List.nodup_cons.1 hnd
    have hstep := grouperInv_step hn hc (hfresh t (List.mem_cons_self ..)) hinv
    have hfresh' : ∀ a ∈ rest, a ∉ insert t vs := by
      intro a ha hmem
      rcases Finset.mem_insert.1 hmem with rfl | hmem'
      · exact hnt ha
      · exact hfresh a (List.mem_cons_of_mem _ ha) hmem'
    have hres := ih (insert t vs) (grouperStep B gs t) hnd' hfresh' hstep
    have hset : insert t vs ∪ rest.toFinset = vs ∪ (t :: rest).toFinset := by
      rw [List.toFinset_cons, Finset.union_insert, Finset.insert_union]
    rw [hset] at hres
    simpa using hres

/-- The partition computed by `owanimo_grouper`, characterised: nonempty
pairwise-disjoint groups whose union is the tile enumeration, where two
handles share a group exactly when the first is an enumerated tile and
they are joined by a path of connecting neighbor edges through
enumerated tiles. -/
theorem grouper_characterization (B : BoardG H)
    (hnd : B.tiles.Nodup)
    (hn : ∀ x y, x ∈ B.neighbors y ↔ y ∈ B.neighbors x)
    (hc : ∀ x y, B.connects x y = B.connects y x) :
    (∀ g ∈ owanimo_grouper B, g.Nonempty) ∧
      (owanimo_grouper B).Pairwise Disjoint ∧
      (∀ x, (∃ g ∈ owanimo_grouper B, x ∈ g) ↔ x ∈ B.tiles) ∧
      (∀ a b, SameG (owanimo_grouper B) a b ↔
        (a ∈ B.tiles ∧
          Relation.ReflTransGen (stepRelIn B B.tiles.toFinset) a b)) := by
  have hbase : GrouperInv B ∅ [] := by
    refine ⟨by simp, List.Pairwise.nil, by simp, by simp, ?_⟩
    intro x y hx
    simp at hx
  have hres := grouperInv_fold hn hc B.tiles ∅ [] hnd (by simp) hbase
  rw [Finset.empty_union] at hres
  obtain ⟨h1, h2, h3, h4, h5⟩ := hres
  simp only [owanimo_grouper, List.foldl]
  refine ⟨h1, h2, ?_, ?_⟩
  · intro x
    rw [h3 x, List.mem_toFinset]
  · intro a b
    constructor
    · rintro ⟨g, hg, hag, hbg⟩
      exact ⟨List.mem_toFinset.1 ((h3 a).1 ⟨g, hg, hag⟩), h4 g hg a hag b hbg⟩
    · rintro ⟨ha, hpath⟩
      exact h5 a b (List.mem_toFinset.2 ha) hpath

end GrouperInvariant

/-- C1: on a board whose `tiles()` enumerates each handle (of the handle
type) exactly once, with symmetric `neighbors` and symmetric `connects`,
`owanimo_grouper` partitions the enumerated tiles into the maximal
connected components: groups are nonempty and pairwise disjoint, their
union is the set of enumerated tiles, and two handles share a group
exactly when they are joined by a path of neighbor edges each of which
satisfies `connects`. -/
theorem claim1_grouper_components (B : BoardG H)
    (hnd : B.tiles.Nodup) (htot : ∀ x : H, x ∈ B.tiles)
    (hn : ∀ x y, x ∈ B.neighbors y ↔ y ∈ B.neighbors x)
    (hc : ∀ x y, B.connects x y = B.connects y x) :
    (∀ g ∈ owanimo_grouper B, g.Nonempty) ∧
      (owanimo_grouper B).Pairwise Disjoint ∧
      (∀ x, (∃ g ∈ owanimo_grouper B, x ∈ g) ↔ x ∈ B.tiles) ∧
      (∀ a b, (∃ g ∈ owanimo_grouper B, a ∈ g ∧ b ∈ g) ↔
        Relation.ReflTransGen (stepRel B) a b) := by
  obtain ⟨h1, h2, h3, h4⟩ := grouper_characterization B hnd hn hc
  refine ⟨h1, h2, h3, ?_⟩
  intro a b
  rw [show (∃ g ∈ owanimo_grouper B, a ∈ g ∧ b ∈ g) ↔
    SameG (owanimo_grouper B) a b from Iff.rfl, h4 a b]
  constructor
  · rintro ⟨_, hpath⟩
    exact hpath.mono fun x y h => h.2.2
  · intro hpath
    refine ⟨htot a, hpath.mono fun x y h => ?_⟩
    exact ⟨List.mem_toFinset.2 (htot x), List.mem_toFinset.2 (htot y), h⟩

/-- Witness for C1 on the concrete three-tile path board. -/
theorem claim1_grouper_components_witness :
    ∃ g ∈ owanimo_grouper boardW3, (0 : Fin 3) ∈ g :=
  ((claim1_grouper_components boardW3 (by decide) (by decide) (by decide)
    (by decide)).2.2.1 0).mpr (by decide)

theorem partition_unique_mem {gs1 gs2 : List (Finset H)} {T : Finset H}
    {P : H → H → Prop}
    (h11 : ∀ g ∈ gs1, g.Nonempty)
    (h12 : gs1.Pairwise Disjoint) (h22 : gs2.Pairwise Disjoint)
    (h14 : ∀ a b, SameG gs1 a b ↔ (a ∈ T ∧ P a b))
    (h24 : ∀ a b, SameG gs2 a b ↔ (a ∈ T ∧ P a b)) :
    ∀ g ∈ gs1, g ∈ gs2 := by
  intro g hg
  obtain ⟨x, hx⟩ := h11 g hg
  obtain ⟨hxT, hPxx⟩ := (h14 x x).1 ⟨g, hg, hx, hx⟩
  obtain ⟨g2, hg2, hxg2, _⟩ := (h24 x x).2 ⟨hxT, hPxx⟩
  have hgg : g = g2 := by
    apply Finset.ext
    intro y
    constructor
    · intro hy
      obtain ⟨hT, hP⟩ := (h14 x y).1 ⟨g, hg, hx, hy⟩
      obtain ⟨g', hg', hxg', hyg'⟩ := (h24 x y).2 ⟨hT, hP⟩
      obtain rfl := pairwise_disjoint_unique h22 hg' hg2 hxg' hxg2
      exact hyg'
    · intro hy
      obtain ⟨hT, hP⟩ := (h24 x y).1 ⟨g2, hg2, hxg2, hy⟩
      obtain ⟨g', hg', hxg', hyg'⟩ := (h14 x y).2 ⟨hT, hP⟩
      obtain rfl := pairwise_disjoint_unique h12 hg' hg hxg' hx
      exact hyg'
  rw [hgg]
  exact hg2

theorem grouper_perm_invariant (B1 B2 : BoardG H)
    (hnd1 : B1.tiles.Nodup) (hnd2 : B2.tiles.Nodup)
    (hset : B1.tiles.toFinset = B2.tiles.toFinset)
    (hnb : B1.neighbors = B2.neighbors) (hcn : B1.connects = B2.connects)
    (hn : ∀ x y, x ∈ B1.neighbors y ↔ y ∈ B1.neighbors x)
    (hc : ∀ x y, B1.connects x y = B1.connects y x) :
    (owanimo_grouper B1).toFinset = (owanimo_grouper B2).toFinset := by
  have K1 := grouper_characterization B1 hnd1 hn hc
  have hn2 : ∀ x y, x ∈ B2.neighbors y ↔ y ∈ B2.neighbors x := by
    rw [← hnb]; exact hn
  have hc2 : ∀ x y, B2.connects x y = B2.connects y x := by
    rw [← hcn]; exact hc
  have K2 := grouper_characterization B2 hnd2 hn2 hc2
  have heq : stepRelIn B2 B2.tiles.toFinset = stepRelIn B1 B1.tiles.toFinset := by
    funext x y
    simp only [stepRelIn, stepRel]
    rw [← hset, ← hnb, ← hcn]
  have h14 : ∀ a b, SameG (owanimo_grouper B1) a b ↔
      (a ∈ B1.tiles.toFinset ∧
        Relation.ReflTransGen (stepRelIn B1 B1.tiles.toFinset) a b) := by
    intro a b
    rw [K1.2.2.2 a b, List.mem_toFinset]
  have h24 : ∀ a b, SameG (owanimo_grouper B2) a b ↔
      (a ∈ B1.tiles.toFinset ∧
        Relation.ReflTransGen (stepRelIn B1 B1.tiles.toFinset) a b) := by
    intro a b
    rw [K2.2.2.2 a b, heq, List.mem_toFinset, ← List.mem_toFinset,
      ← hset, List.mem_toFinset]
  apply Finset.ext
  intro g
  rw [List.mem_toFinset, List.mem_toFinset]
  constructor
  · exact fun hg => partition_unique_mem K1.1 K1.2.1 K2.2.1 h14 h24 g hg
  · exact fun hg => partition_unique_mem K2.1 K2.2.1 K1.2.1 h24 h14 g hg

section Gravity

variable {isAir : H → Bool}

theorem firstIdx_decomp (p : H → Bool) (l : List H) :
    (firstIdx p l = l.length ∧ ∀ x ∈ l, p x = false) ∨
      ∃ A x suf, l = A ++ x :: suf ∧ A.length = firstIdx p l ∧
        (∀ y ∈ A, p y = false) ∧ p x = true := by
  induction l with
  | nil => left; exact ⟨rfl, by simp⟩
  | cons a l ih =>
    by_cases h : p a
    · right
      exact ⟨[], a, l, by simp, by simp [firstIdx, h], by simp, h⟩
    · have hfa : p a = false := Bool.eq_false_iff.2 h
      rcases ih with ⟨h1, h2⟩ | ⟨A, x, suf, hdec, hlen, hA, hx⟩
      · left
        refine ⟨by simp [firstIdx, h, h1], ?_⟩
        intro y hy
        rcases List.mem_cons.1 hy with rfl | hy
        · exact hfa
        · exact h2 y hy
      · right
        refine ⟨a :: A, x, suf, by simp [hdec], by simp [firstIdx, h, hlen], ?_, hx⟩
        intro y hy
        rcases List.mem_cons.1 hy with rfl | hy
        · exact hfa
        · exact hA y hy

theorem rotateSeg_append (pre m1 m2 suf : List H) :
    rotateSeg (pre ++ (m1 ++ m2) ++ suf) pre.length
      (pre.length + (m1.length + m2.length)) m1.length =
      pre ++ (m2 ++ m1) ++ suf := by
  have ht : (pre ++ (m1 ++ m2) ++ suf).take pre.length = pre := by
    rw [List.append_assoc, List.take_left]
  have hd : (pre ++ (m1 ++ m2) ++ suf).drop pre.length = (m1 ++ m2) ++ suf := by
    rw [List.append_assoc, List.drop_left]
  have harith : pre.length + (m1.length + m2.length) - pre.length =
      m1.length + m2.length := by omega
  have hseg : ((m1 ++ m2) ++ suf).take (m1.length + m2.length) = m1 ++ m2 :=
    List.take_left' (by simp)
  have hd2 : (pre ++ (m1 ++ m2) ++ suf).drop
      (pre.length + (m1.length + m2.length)) = suf := by
    rw [show pre ++ (m1 ++ m2) ++ suf = (pre ++ (m1 ++ m2)) ++ suf by simp]
    exact List.drop_left' (by simp)
  rw [rotateSeg, ht, harith, hd, hseg, hd2, List.drop_left, List.take_left]

theorem compactSpec_sorted (P Q : List H)
    (hP : ∀ x ∈ P, isAir x = false) (hQ : ∀ x ∈ Q, isAir x = true) :
    compactSpec isAir (P ++ Q) = P ++ Q := by
  rw [compactSpec, List.filter_append, List.filter_append,
    List.filter_eq_self.2 (fun a ha => by simp [hP a ha]),
    show Q.filter (fun x => !isAir x) = [] from
      List.filter_eq_nil_iff.2 (fun a ha => by simp [hQ a ha]),
    show P.filter (fun x => isAir x) = [] from
      List.filter_eq_nil_iff.2 (fun a ha => by simp [hP a ha]),
    List.filter_eq_self.2 (fun a ha => by simp [hQ a ha])]
  simp

theorem compactSpec_swap (pre A N rem : List H)
    (hA : ∀ x ∈ A, isAir x = true) (hN : ∀ x ∈ N, isAir x = false) :
    compactSpec isAir (pre ++ (N ++ (A ++ rem))) =
      compactSpec isAir (pre ++ (A ++ (N ++ rem))) := by
  have hA1 : A.filter (fun x => !isAir x) = [] :=
    List.filter_eq_nil_iff.2 fun a ha => by simp [hA a ha]
  have hA2 : A.filter (fun x => isAir x) = A :=
    List.filter_eq_self.2 fun a ha => by simp [hA a ha]
  have hN1 : N.filter (fun x => !isAir x) = N :=
    List.filter_eq_self.2 fun a ha => by simp [hN a ha]
  have hN2 : N.filter (fun x => isAir x) = [] :=
    List.filter_eq_nil_iff.2 fun a ha => by simp [hN a ha]
  simp only [compactSpec, List.filter_append, hA1, hA2, hN1, hN2]
  simp

theorem ne_compactSpec_of_inversion (pre A N rem : List H)
    (hpre : ∀ x ∈ pre, isAir x = false)
    (hA : ∀ x ∈ A, isAir x = true) (hN : ∀ x ∈ N, isAir x = false)
    (hAne : A ≠ []) (hNne : N ≠ []) :
    pre ++ (A ++ (N ++ rem)) ≠ compactSpec isAir (pre ++ (A ++ (N ++ rem))) := by
  intro hEq
  have hpre1 : pre.filter (fun x => !isAir x) = pre :=
    List.filter_eq_self.2 fun a ha => by simp [hpre a ha]
  have hA1 : A.filter (fun x => !isAir x) = [] :=
    List.filter_eq_nil_iff.2 fun a ha => by simp [hA a ha]
  have hN1 : N.filter (fun x => !isAir x) = N :=
    List.filter_eq_self.2 fun a ha => by simp [hN a ha]
  obtain ⟨a, A1, rfl⟩ := List.exists_cons_of_ne_nil hAne
  obtain ⟨n, N1, rfl⟩ := List.exists_cons_of_ne_nil hNne
  rw [compactSpec, List.filter_append, List.filter_append, List.filter_append,
    hpre1, hA1, hN1] at hEq
  simp only [List.nil_append, List.append_assoc, List.cons_append] at hEq
  have hcancel := List.append_cancel_left hEq
  have hhead : a = n := (List.cons_eq_cons.1 hcancel).1
  have h1 := hA a (List.mem_cons_self ..)
  have h2 := hN n (List.mem_cons_self ..)
  rw [hhead, h2] at h1
  exact Bool.false_ne_true h1

theorem compactLoop_spec :
    ∀ (fuel : Nat) (pre rest : List H) (df : Bool),
      rest.length < fuel → rest ≠ [] →
      (∀ x ∈ pre, isAir x = false) →
      compactLoop isAir fuel (pre ++ rest) pre.length df =
        some (compactSpec isAir (pre ++ rest),
          df || decide (pre ++ rest ≠ compactSpec isAir (pre ++ rest))) := by
  intro fuel
  induction fuel with
  | zero =>
    intro pre rest df hfuel
    exact absurd hfuel (Nat.not_lt_zero _)
  | succ fuel ih =>
    intro pre rest df hfuel hne hpre
    have hi : pre.length < (pre ++ rest).length := by
      rw [List.length_append]
      have := List.length_pos.2 hne
      omega
    have hdrop : (pre ++ rest).drop pre.length = rest := List.drop_left _ _
    have hb : findFrom (fun x => !isAir x) (pre ++ rest) pre.length =
        pre.length + firstIdx (fun x => !isAir x) rest := by
      rw [findFrom, hdrop]
    rcases firstIdx_decomp (fun x => !isAir x) rest with
      ⟨hfi, hallr⟩ | ⟨A, x, rest1, hrest, hlenA, hallA, hx⟩
    · -- every remaining tile is air: `break 'outer`, nothing changes
      have hbl : findFrom (fun x => !isAir x) (pre ++ rest) pre.length =
          (pre ++ rest).length := by
        rw [hb, hfi, List.length_append]
      have hairRest : ∀ y ∈ rest, isAir y = true := fun y hy => by
        have := hallr y hy
        simpa using this
      have hspec : compactSpec isAir (pre ++ rest) = pre ++ rest :=
        compactSpec_sorted pre rest hpre hairRest
      rw [compactLoop, if_pos hi, hbl, if_pos rfl, hspec]
      simp
    · -- air run `A`, then a non-air run starting at `x`
      have hAair : ∀ y ∈ A, isAir y = true := fun y hy => by
        have := hallA y hy
        simpa using this
      have hxair : isAir x = false := by simpa using hx
      have hbv : findFrom (fun x => !isAir x) (pre ++ rest) pre.length =
          pre.length + A.length := by
        rw [hb, ← hlenA]
      obtain ⟨N, rem, hxr, hNne, hNair, hfiN⟩ :
          ∃ N rem, x :: rest1 = N ++ rem ∧ N ≠ [] ∧
            (∀ z ∈ N, isAir z = false) ∧
            firstIdx isAir (x :: rest1) = N.length := by
        rcases firstIdx_decomp isAir rest1 with
          ⟨hfi1, hall1⟩ | ⟨N1, y, rest2, hrest1, hlen1, hallN1, hy⟩
        · refine ⟨x :: rest1, [], by simp, by simp, ?_, by simp [firstIdx, hxair, hfi1]⟩
          intro z hz
          rcases List.mem_cons.1 hz with rfl | hz
          · exact hxair
          · exact hall1 z hz
        · refine ⟨x :: N1, y :: rest2, by simp [hrest1], by simp, ?_,
            by simp [firstIdx, hxair, ← hlen1]⟩
          intro z hz
          rcases List.mem_cons.1 hz with rfl | hz
          · exact hxair
          · exact hallN1 z hz
      have hrest2 : rest = A ++ (N ++ rem) := by
        rw [hrest, hxr]
      have hdropb : (pre ++ rest).drop (pre.length + A.length) = x :: rest1 := by
        rw [hrest, show pre ++ (A ++ x :: rest1) = (pre ++ A) ++ x :: rest1 by simp]
        exact List.drop_left' (by simp)
      have hjv : findFrom isAir (pre ++ rest) (pre.length + A.length) =
          pre.length + A.length + N.length := by
        rw [findFrom, hdropb, hfiN]
      have hNpos : 0 < N.length := List.length_pos.2 hNne
      have hcl : (pre ++ rest).length =
          pre.length + (A.length + (N.length + rem.length)) := by
        rw [List.length_append, hrest2]
        simp [List.length_append]
      have hbne : ¬(pre.length + A.length = (pre ++ rest).length) := by
        rw [hcl]; omega
      have hguard : pre.length ≤ pre.length + A.length + N.length ∧
          pre.length + A.length + N.length ≤ (pre ++ rest).length ∧
          pre.length + A.length - pre.length ≤
            pre.length + A.length + N.length - pre.length := by
        refine ⟨by omega, by rw [hcl]; omega, by omega⟩
      have hrot : rotateSeg (pre ++ rest) pre.length
          (pre.length + A.length + N.length) (pre.length + A.length - pre.length) =
          pre ++ (N ++ (A ++ rem)) := by
        have harith : pre.length + A.length - pre.length = A.length := by omega
        have hform : pre ++ rest = pre ++ (A ++ N) ++ rem := by
          rw [hrest2]; simp [List.append_assoc]
        rw [harith, hform,
          show pre.length + A.length + N.length =
            pre.length + (A.length + N.length) by omega,
          rotateSeg_append]
        simp [List.append_assoc]
      have hi2 : pre.length + A.length + N.length -
          (pre.length + A.length - pre.length) = pre.length + N.length := by
        omega
      rw [compactLoop, if_pos hi, hbv, if_neg hbne, hjv, if_pos hguard, hrot, hi2]
      by_cases hend : pre.length + N.length = (pre ++ rest).length
      · -- the adjusted index reaches the end: A and rem are both empty
        have hA0 : A.length = 0 ∧ rem.length = 0 := by
          rw [hcl] at hend; omega
        have hAnil : A = [] := List.length_eq_zero.1 hA0.1
        have hremnil : rem = [] := List.length_eq_zero.1 hA0.2
        subst hAnil
        subst hremnil
        have hcolN : rest = N := by simpa using hrest2
        subst hcolN
        have hallcol : ∀ y ∈ pre ++ rest, isAir y = false := by
          intro y hy
          rcases List.mem_append.1 hy with hy | hy
          · exact hpre y hy
          · exact hNair y hy
        have hspec : compactSpec isAir (pre ++ rest) = pre ++ rest := by
          have := compactSpec_sorted (pre ++ rest) [] hallcol (by simp)
          simpa using this
        rw [if_pos hend, hspec]
        simp
      · rw [if_neg hend]
        have hlen2 : (A ++ rem).length < fuel := by
          have h1 : rest.length = A.length + (N.length + rem.length) := by
            rw [hrest2]; simp
          rw [List.length_append]
          omega
        have hne2 : A ++ rem ≠ [] := by
          intro hnil
          obtain ⟨ha, hr⟩ := List.append_eq_nil.1 hnil
          apply hend
          rw [hcl, ha, hr]
          simp
        have hpre2 : ∀ y ∈ pre ++ N, isAir y = false := by
          intro y hy
          rcases List.mem_append.1 hy with hy | hy
          · exact hpre y hy
          · exact hNair y hy
        have hform2 : pre ++ (N ++ (A ++ rem)) = (pre ++ N) ++ (A ++ rem) := by
          simp [List.append_assoc]
        have hidx2 : pre.length + N.length = (pre ++ N).length := by
          simp [List.length_append]
        rw [hform2, hidx2, ih (pre ++ N) (A ++ rem) _ hlen2 hne2 hpre2]
        have hspec2 : compactSpec isAir ((pre ++ N) ++ (A ++ rem)) =
            compactSpec isAir (pre ++ rest) := by
          rw [hrest2, show (pre ++ N) ++ (A ++ rem) = pre ++ (N ++ (A ++ rem)) by
            simp [List.append_assoc]]
          exact compactSpec_swap pre A N rem hAair hNair
        rw [hspec2]
        by_cases hA : A = []
        · -- no air was skipped: the rotation was a no-op
          have hdA : (decide (pre.length + A.length ≠ pre.length)) = false := by
            simp [hA]
          have hcols : (pre ++ N) ++ (A ++ rem) = pre ++ rest := by
            rw [hrest2, hA]
            simp [List.append_assoc]
          rw [hdA, hcols]
          simp
        · -- a real fall happened: the column differs from its compaction
          have hdA : (decide (pre.length + A.length ≠ pre.length)) = true := by
            have hApos : 0 < A.length := List.length_pos.2 hA
            exact decide_eq_true (by omega)
          have hneq : pre ++ rest ≠ compactSpec isAir (pre ++ rest) := by
            rw [hrest2]
            exact ne_compactSpec_of_inversion pre A N rem hpre hAair hNair hA hNne
          have hdcol : (decide (pre ++ rest ≠ compactSpec isAir (pre ++ rest))) =
              true := by simpa using hneq
          rw [hdA, hdcol]
          simp

theorem compactColumn_spec (col : List H) (hne : col ≠ []) :
    compactColumn isAir col =
      some (compactSpec isAir col, decide (col ≠ compactSpec isAir col)) := by
  have h := @compactLoop_spec H _ isAir (col.length + 1) [] col false
    (Nat.lt_succ_self _) hne (by simp)
  simpa [compactColumn] using h

theorem compactSpec_perm (col : List H) : (compactSpec isAir col).Perm col := by
  have h := List.filter_append_perm (fun x => !isAir x) col
  have hcongr : col.filter (fun x => !(!isAir x)) = col.filter (fun x => isAir x) :=
    List.filter_congr fun a _ => by simp
  rw [compactSpec, ← hcongr]
  exact h

theorem compactSpec_idem (col : List H) :
    compactSpec isAir (compactSpec isAir col) = compactSpec isAir col := by
  rw [compactSpec]
  refine compactSpec_sorted _ _ ?_ ?_
  · intro x hx
    have := List.of_mem_filter hx
    simpa using this
  · intro x hx
    exact List.of_mem_filter hx

theorem fallColumns_spec :
    ∀ (cols : List (List H)) (df : Bool), (∀ c ∈ cols, c ≠ []) →
      fallColumns isAir cols df =
        some (cols.map (compactSpec isAir),
          df || decide (cols.map (compactSpec isAir) ≠ cols)) := by
  intro cols
  induction cols with
  | nil => intro df _; simp [fallColumns]
  | cons c cs ih =>
    intro df hall
    have hc : c ≠ [] := hall c (List.mem_cons_self ..)
    have hcomp : compactLoop isAir (c.length + 1) c 0 df =
        some (compactSpec isAir c, df || decide (c ≠ compactSpec isAir c)) := by
      have h := @compactLoop_spec H _ isAir (c.length + 1) [] c df
        (Nat.lt_succ_self _) hc (by simp)
      simpa using h
    rw [fallColumns, hcomp]
    simp only [Option.some_bind]
    rw [ih _ fun d hd => hall d (List.mem_cons_of_mem _ hd)]
    simp only [Option.some_bind]
    have hflag : ((df || decide (c ≠ compactSpec isAir c)) ||
        decide (cs.map (compactSpec isAir) ≠ cs)) =
        (df || decide (compactSpec isAir c :: cs.map (compactSpec isAir) ≠ c :: cs)) := by
      by_cases h1 : c = compactSpec isAir c <;>
        by_cases h2 : cs.map (compactSpec isAir) = cs
      · have e1 : decide (c ≠ compactSpec isAir c) = false :=
          decide_eq_false (not_not_intro h1)
        have e2 : decide (cs.map (compactSpec isAir) ≠ cs) = false :=
          decide_eq_false (not_not_intro h2)
        have e3 : decide (compactSpec isAir c :: cs.map (compactSpec isAir) ≠
            c :: cs) = false :=
          decide_eq_false (not_not_intro (by rw [← h1, h2]))
        rw [e1, e2, e3]
        simp
      · have e2 : decide (cs.map (compactSpec isAir) ≠ cs) = true :=
          decide_eq_true h2
        have e3 : decide (compactSpec isAir c :: cs.map (compactSpec isAir) ≠
            c :: cs) = true :=
          decide_eq_true fun he => h2 (List.cons_eq_cons.1 he).2
        rw [e2, e3]
        simp
      · have e1 : decide (c ≠ compactSpec isAir c) = true :=
          decide_eq_true h1
        have e3 : decide (compactSpec isAir c :: cs.map (compactSpec isAir) ≠
            c :: cs) = true :=
          decide_eq_true fun he => h1 ((List.cons_eq_cons.1 he).1).symm
        rw [e1, e3]
        simp
      · have e1 : decide (c ≠ compactSpec isAir c) = true :=
          decide_eq_true h1
        have e3 : decide (compactSpec isAir c :: cs.map (compactSpec isAir) ≠
            c :: cs) = true :=
          decide_eq_true fun he => h1 ((List.cons_eq_cons.1 he).1).symm
        rw [e1, e3]
        simp
    rw [List.map_cons, ← hflag]

theorem fallColumns_success_nonempty :
    ∀ (cols : List (List H)) (df : Bool) (res : List (List H) × Bool),
      fallColumns isAir cols df = some res → ∀ c ∈ cols, c ≠ [] := by
  intro cols
  induction cols with
  | nil => intro df res _ c hc; cases hc
  | cons c cs ih =>
    intro df res hres d hd
    by_cases hc : c = []
    · subst hc
      rw [fallColumns] at hres
      simp [compactLoop] at hres
    · rcases List.mem_cons.1 hd with rfl | hd'
      · exact hc
      · rw [fallColumns] at hres
        cases hcomp : compactLoop isAir (c.length + 1) c 0 df with
        | none => rw [hcomp] at hres; exact Option.noConfusion hres
        | some r =>
          rw [hcomp] at hres
          simp only [Option.some_bind] at hres
          cases hrest : fallColumns isAir cs r.2 with
          | none => rw [hrest] at hres; exact Option.noConfusion hres
          | some r2 => exact ih r.2 r2 hrest d hd'

/-- C3 amended: on every nonempty column, one application of the
per-column compaction completes and leaves the column equal to its
non-air handles (in order) followed by its air handles (in order). -/
theorem claim3_compaction (isAir : H → Bool) (col : List H) (hne : col ≠ []) :
    compactColumn isAir col =
      some (col.filter (fun x => !isAir x) ++ col.filter (fun x => isAir x),
        decide (col ≠ compactSpec isAir col)) :=
  compactColumn_spec col hne

/-- C3 counterexample: on the empty column the scan's very first
`col[index]` read is out of bounds, so the compaction panics instead of
returning the (empty) compacted column. -/
theorem claim3_counterexample :
    compactColumn (fun b : Bool => b) [] = none := rfl

/-- Witness for C3 on a concrete two-element column (air below solid). -/
theorem claim3_witness :
    compactColumn (fun b : Bool => b) [true, false] =
      some ([true, false].filter (fun x => !x) ++ [true, false].filter (fun x => x),
        decide ([true, false] ≠ compactSpec (fun b : Bool => b) [true, false])) :=
  claim3_compaction (fun b : Bool => b) [true, false] (by decide)

/-- C7: (1) immediately re-applying the per-column compaction to a
column it just produced returns the column unchanged with `did_fall =
false`; (2) a single application of `fall` reports `true` exactly when
some column actually changed. -/
theorem claim7_idempotence_and_flag (isAir : H → Bool) :
    (∀ (col res : List H) (df : Bool),
      compactColumn isAir col = some (res, df) →
      compactColumn isAir res = some (res, false)) ∧
    (∀ (cols cols2 : List (List H)) (df2 : Bool),
      fall isAir cols = some (cols2, df2) → (df2 = true ↔ cols2 ≠ cols)) := by
  constructor
  · intro col res df h
    by_cases hcol : col = []
    · subst hcol
      exact Option.noConfusion h
    · rw [compactColumn_spec col hcol] at h
      have hp := Option.some.inj h
      have hres : res = compactSpec isAir col := (congrArg Prod.fst hp).symm
      have hresne : res ≠ [] := by
        rw [hres]
        intro hnil
        have hperm : (compactSpec isAir col).Perm col := compactSpec_perm col
        rw [hnil] at hperm
        exact hcol (hperm.symm.eq_nil)
      rw [compactColumn_spec res hresne, hres, compactSpec_idem]
      simp
  · intro cols cols2 df2 h
    have h' : fallColumns isAir cols false = some (cols2, df2) := h
    have hall := fallColumns_success_nonempty cols false (cols2, df2) h'
    rw [fallColumns_spec cols false hall] at h'
    have hp := Option.some.inj h'
    have h1 : cols2 = cols.map (compactSpec isAir) := (congrArg Prod.fst hp).symm
    have h2 : decide (cols.map (compactSpec isAir) ≠ cols) = df2 := by
      have hsnd := congrArg Prod.snd hp
      simpa using hsnd
    subst h1
    rw [← h2]
    simp

/-- Witness for C7 on a concrete board: one column `[air, solid]`
falls to `[solid, air]` with `did_fall = true`; re-compacting it
changes nothing and reports `false`. -/
theorem claim7_witness :
    compactColumn (fun b : Bool => b) [false, true] = some ([false, true], false) ∧
    (true = true ↔ ([[false, true]] : List (List Bool)) ≠ [[true, false]]) :=
  ⟨(claim7_idempotence_and_flag (fun b : Bool => b)).1 [true, false] [false, true]
      true (by decide),
    (claim7_idempotence_and_flag (fun b : Bool => b)).2 [[true, false]]
      [[false, true]] true (by decide)⟩

/-- C10 amended: whenever every column slice handed to the per-column
compaction is nonempty, every slice access of the scan stays in bounds
and `fall` completes without panicking. -/
theorem claim10_no_panic (isAir : H → Bool) (cols : List (List H))
    (hall : ∀ c ∈ cols, c ≠ []) :
    ∃ res, fall isAir cols = some res :=
  ⟨_, fallColumns_spec cols false hall⟩

/-- C10 counterexample: a board handing one empty column slice makes the
scan read `col[0]` on an empty slice, a panic (`none`). -/
theorem claim10_counterexample :
    fall (fun b : Bool => b) [[]] = none := rfl

/-- Witness for C10 on a one-column board. -/
theorem claim10_witness :
    ∃ res, fall (fun b : Bool => b) [[true]] = some res :=
  claim10_no_panic (fun b : Bool => b) [[true]] (by decide)

end Gravity

section QuickSim

variable {S : Type} (ops : SimOps S H) (ptp : Nat) (pc pb cb gb : ScorerFn S H)
  (table : List Nat)

theorem u64Mod_pos : 0 < u64Mod := by norm_num [u64Mod]

theorem qsimLoop_trace :
    ∀ (fuel score chain pieces maxp : Nat) (s : S) (r : SimResult) (s2 : S),
      chain < u64Mod →
      qsimLoop ops ptp pc pb cb gb table fuel score chain pieces maxp s =
        some (r, s2) →
      ∃ tr, qsimTrace ops ptp pc pb cb gb table fuel chain s = some (tr, s2) ∧
        tr ≠ [] ∧ (∀ p ∈ tr.dropLast, p.2 ≠ 0) ∧
        (∃ ts, tr.getLast? = some (ts, 0)) ∧
        r.score = (tr.map Prod.fst).foldl u64add score ∧
        r.pieces_cleared = (tr.map Prod.snd).foldl u64add pieces ∧
        r.chain = (chain + (tr.length - 1)) % u64Mod ∧
        r.max_pieces_at_once = (tr.map Prod.snd).foldl max maxp := by
  intro fuel
  induction fuel with
  | zero =>
    intro score chain pieces maxp s r s2 _ h
    exact Option.noConfusion h
  | succ fuel ih =>
    intro score chain pieces maxp s r s2 hchain h
    by_cases htc : (qsimStep ops ptp pc pb cb gb table chain s).2.1 = 0
    · rw [qsimLoop, if_pos htc] at h
      have hp := Option.some.inj h
      have hr : r = ⟨u64add score (qsimStep ops ptp pc pb cb gb table chain s).1,
          chain,
          u64add pieces (qsimStep ops ptp pc pb cb gb table chain s).2.1,
          max maxp (qsimStep ops ptp pc pb cb gb table chain s).2.1⟩ :=
        (congrArg Prod.fst hp).symm
      have hs2 : s2 = (qsimStep ops ptp pc pb cb gb table chain s).2.2 :=
        (congrArg Prod.snd hp).symm
      refine ⟨[((qsimStep ops ptp pc pb cb gb table chain s).1, 0)], ?_, by simp,
        by simp, ⟨(qsimStep ops ptp pc pb cb gb table chain s).1, rfl⟩,
        ?_, ?_, ?_, ?_⟩
      · rw [qsimTrace, if_pos htc, htc, hs2]
      · rw [hr]
        simp
      · rw [hr]
        simp [htc]
      · rw [hr]
        simp [Nat.mod_eq_of_lt hchain]
      · rw [hr]
        simp [htc]
    · rw [qsimLoop, if_neg htc] at h
      have hchain2 : u64add chain 1 < u64Mod := Nat.mod_lt _ u64Mod_pos
      obtain ⟨tr, htr, hne, hdrop, hlast, hsc, hpcs, hch, hmx⟩ :=
        ih _ _ _ _ _ r s2 hchain2 h
      obtain ⟨q, tr1, rfl⟩ := List.exists_cons_of_ne_nil hne
      refine ⟨((qsimStep ops ptp pc pb cb gb table chain s).1,
        (qsimStep ops ptp pc pb cb gb table chain s).2.1) :: q :: tr1,
        ?_, by simp, ?_, ?_, ?_, ?_, ?_, ?_⟩
      · rw [qsimTrace, if_neg htc, htr]
        rfl
      · intro p hp
        rw [List.dropLast_cons₂] at hp
        rcases List.mem_cons.1 hp with rfl | hp'
        · exact htc
        · exact hdrop p hp'
      · obtain ⟨ts, hts⟩ := hlast
        exact ⟨ts, by rw [List.getLast?_cons_cons, hts]⟩
      · rw [hsc]
        simp
      · rw [hpcs]
        simp
      · rw [hch]
        simp only [List.length_cons, Nat.add_sub_cancel]
        have hme : ((chain + 1) % u64Mod + tr1.length) % u64Mod =
            (chain + 1 + tr1.length) % u64Mod :=
          (Nat.mod_modEq (chain + 1) u64Mod).add_right tr1.length
        calc (u64add chain 1 + tr1.length) % u64Mod
            = (chain + 1 + tr1.length) % u64Mod := hme
          _ = (chain + (tr1.length + 1)) % u64Mod := by
              congr 1
              omega
      · rw [hmx]
        simp

theorem qsimLoop_term (mu : S → Nat)
    (hdec : ∀ (chain : Nat) (s : S),
      (qsimStep ops ptp pc pb cb gb table chain s).2.1 ≠ 0 →
      mu (qsimStep ops ptp pc pb cb gb table chain s).2.2 < mu s) :
    ∀ (fuel : Nat) (s : S) (score chain pieces maxp : Nat), mu s < fuel →
      ∃ r, qsimLoop ops ptp pc pb cb gb table fuel score chain pieces maxp s =
        some r := by
  intro fuel
  induction fuel with
  | zero =>
    intro s _ _ _ _ h
    exact absurd h (Nat.not_lt_zero _)
  | succ fuel ih =>
    intro s score chain pieces maxp hmu
    by_cases htc : (qsimStep ops ptp pc pb cb gb table chain s).2.1 = 0
    · exact ⟨_, by rw [qsimLoop, if_pos htc]⟩
    · have hlt := hdec chain s htc
      obtain ⟨r, hr⟩ := ih ((qsimStep ops ptp pc pb cb gb table chain s).2.2)
        (u64add score (qsimStep ops ptp pc pb cb gb table chain s).1)
        (u64add chain 1)
        (u64add pieces (qsimStep ops ptp pc pb cb gb table chain s).2.1)
        (max maxp (qsimStep ops ptp pc pb cb gb table chain s).2.1)
        (by omega)
      exact ⟨r, by rw [qsimLoop, if_neg htc]; exact hr⟩

end QuickSim

/-- C2 counterexample: with the zero `pieces_cleared` scorer (`&()`), a
constant point bonus of 5, chain-power table `[1]`, pop threshold 1 and
one tile on the board, the single pass clears zero tiles yet the run
banishes the tile (final board `[]`, not `[0]`) and returns total score
5 — the claimed sum over passes that cleared at least one tile is 0. -/
theorem claim2_counterexample :
    quickSim listOps 1 zeroScorer (constScorer 5) [1] zeroScorer zeroScorer 1 [0] =
      some (⟨5, 0, 0, 0⟩, []) ∧ (5 : Nat) ≠ 0 ∧ ([] : List Nat) ≠ [0] :=
  ⟨by decide, by decide, by decide⟩

/-- C2 amended: the final (zero-clear) pass terminates the loop without
incrementing the chain count, but it still banishes every tile of its
popped groups and still adds its per-pass score and (zero) cleared
count to the running totals: the returned totals are the `u64` sums of
the per-pass values over ALL passes, the final one included, and the
chain count equals the number of passes that cleared at least one
tile. -/
theorem claim2_final_pass {S : Type} (ops : SimOps S H) (ptp : Nat)
    (pc pb cb gb : ScorerFn S H) (table : List Nat) (fuel : Nat) (s : S)
    (r : SimResult) (s2 : S)
    (h : quickSim ops ptp pc pb table cb gb fuel s = some (r, s2)) :
    ∃ tr, qsimTrace ops ptp pc pb cb gb table fuel 0 s = some (tr, s2) ∧
      tr ≠ [] ∧ (∀ p ∈ tr.dropLast, p.2 ≠ 0) ∧
      (∃ ts, tr.getLast? = some (ts, 0)) ∧
      r.score = (tr.map Prod.fst).foldl u64add 0 ∧
      r.pieces_cleared = (tr.map Prod.snd).foldl u64add 0 ∧
      r.chain = (tr.length - 1) % u64Mod ∧
      r.max_pieces_at_once = (tr.map Prod.snd).foldl max 0 := by
  have := qsimLoop_trace ops ptp pc pb cb gb table fuel 0 0 0 0 s r s2
    u64Mod_pos h
  simpa using this

/-- Witness for the amended C2 on the counterexample run. -/
theorem claim2_witness :
    ∃ tr, qsimTrace listOps 1 zeroScorer (constScorer 5) zeroScorer zeroScorer
        [1] 1 0 [0] = some (tr, []) ∧
      tr ≠ [] ∧ (∀ p ∈ tr.dropLast, p.2 ≠ 0) ∧
      (∃ ts, tr.getLast? = some (ts, 0)) ∧
      (5 : Nat) = (tr.map Prod.fst).foldl u64add 0 ∧
      (0 : Nat) = (tr.map Prod.snd).foldl u64add 0 ∧
      (0 : Nat) = (tr.length - 1) % u64Mod ∧
      (0 : Nat) = (tr.map Prod.snd).foldl max 0 :=
  claim2_final_pass listOps 1 zeroScorer (constScorer 5) zeroScorer zeroScorer
    [1] 1 [0] ⟨5, 0, 0, 0⟩ [] (by decide)

/-- C8: under the claim's preconditions — summarised by a natural-number
measure of the non-air tiles that strictly decreases across every pass
whose reported cleared count is nonzero — `quick_sim` terminates: fuel
one larger than the measure suffices for the loop to reach a zero-clear
pass and return a `SimResult`. -/
theorem claim8_termination {S : Type} (ops : SimOps S H) (ptp : Nat)
    (pc pb cb gb : ScorerFn S H) (table : List Nat) (mu : S → Nat)
    (hdec : ∀ (chain : Nat) (s : S),
      (qsimStep ops ptp pc pb cb gb table chain s).2.1 ≠ 0 →
      mu (qsimStep ops ptp pc pb cb gb table chain s).2.2 < mu s) (s : S) :
    ∃ r, quickSim ops ptp pc pb table cb gb (mu s + 1) s = some r :=
  qsimLoop_term ops ptp pc pb cb gb table mu hdec (mu s + 1) s 0 0 0 0
    (Nat.lt_succ_self _)

/-- Witness for C8 on the empty board. -/
theorem claim8_witness :
    ∃ r, quickSim unitOps 2 trivialPiecesCleared zeroScorer [1] zeroScorer
      zeroScorer (0 + 1) () = some r :=
  claim8_termination unitOps 2 trivialPiecesCleared zeroScorer zeroScorer
    zeroScorer [1] (fun _ => 0) (fun _ _ h => absurd rfl h) ()

/-- C4: `owanimo_nuisance` returns exactly the original selection
followed by one new singleton group for every enumerated tile that is a
nuisance and has a neighbor in a group of the ORIGINAL selection; a
nuisance tile adjacent only to other newly added nuisance singletons is
not added (the membership test consults `sel` alone). -/
theorem claim4_nuisance_expansion (B : BoardG H) (nu : H → Bool)
    (sel : List (Finset H)) :
    owanimo_nuisance B nu sel =
      sel ++ (B.tiles.filter (fun p => decide (nu p = true ∧
        ∃ n ∈ B.neighbors p, ∃ g ∈ sel, n ∈ g))).map
          (fun p => ({p} : Finset H)) := by
  rw [owanimo_nuisance, List.filter_filter]
  congr 2
  apply List.filter_congr
  intro p _
  rw [Bool.eq_iff_iff]
  simp only [testGroups, List.any_eq_true, Bool.and_eq_true, decide_eq_true_eq]
  tauto

/-- C5: the standard combined score is `(10 * pieces_cleared +
point_bonus) * (chain_power + color_bonus + group_bonus)` in wrapping
`u64` arithmetic (`StandardScorer::score` passes its color and group
bonuses into swapped slots of `score`, which the commutative multiplier
sum absorbs); with the sum-of-sizes `pieces_cleared` scorer on one
cleared group of 4 and all bonuses zero the total is 0, and with
chain-power table `[1]` at chain depth 0 the total is 40. -/
theorem claim5_standard_score :
    (∀ (S K : Type) (pc pb cp cb gb : ScorerFn S K) (b : S)
        (pg : List (Finset K)),
      standardScore pc pb cp cb gb b pg =
        ((10 * pc b pg + pb b pg) * (cp b pg + cb b pg + gb b pg)) % u64Mod) ∧
    standardScore (trivialPiecesCleared : ScorerFn Unit (Fin 4)) zeroScorer
      zeroScorer zeroScorer zeroScorer () [{0, 1, 2, 3}] = 0 ∧
    standardScore (trivialPiecesCleared : ScorerFn Unit (Fin 4)) zeroScorer
      (constScorer (tableLookup [1] 0)) zeroScorer zeroScorer ()
      [{0, 1, 2, 3}] = 40 := by
  refine ⟨?_, by decide, by decide⟩
  intro S K pc pb cp cb gb b pg
  show u64mul (u64add (u64mul 10 (pc b pg)) (pb b pg))
      (u64add (u64add (cp b pg) (gb b pg)) (cb b pg)) = _
  have h1 : u64add (u64mul 10 (pc b pg)) (pb b pg) =
      (10 * pc b pg + pb b pg) % u64Mod := by
    rw [u64add, u64mul, Nat.mod_add_mod]
  have h2 : u64add (u64add (cp b pg) (gb b pg)) (cb b pg) =
      (cp b pg + cb b pg + gb b pg) % u64Mod := by
    rw [u64add, u64add, Nat.mod_add_mod]
    congr 1
    omega
  rw [h1, h2, u64mul]
  exact (Nat.mul_mod _ _ _).symm

/-- C6: every scoring-table lookup is total, through the shared clamped
lookup: the entry at the index when in range, the last entry when out
of range, zero when the table is empty; the color-bonus score is that
lookup at the distinct-first-color count and the group-bonus score sums
that lookup at each considered group's size. -/
theorem claim6_table_lookups :
    (∀ (t : List Nat) (i : Nat),
      (∀ h : i < t.length, tableLookup t i = t.get ⟨i, h⟩) ∧
      (t.length ≤ i → tableLookup t i = t.getLast?.getD 0) ∧
      (t = [] → tableLookup t i = 0)) ∧
    (∀ (C : Type) [DecidableEq C] [LinearOrder H] (t : List Nat)
        (color : H → Option C) (pg : List (Finset H)),
      colorBonusScore t color pg = tableLookup t (numColors color pg)) ∧
    (∀ (t : List Nat) (consider : Finset H → Bool) (pg : List (Finset H)),
      groupBonusScore t consider pg =
        ((pg.filter (fun g => consider g)).map
          (fun g => tableLookup t g.card)).foldl u64add 0) := by
  refine ⟨?_, ?_, ?_⟩
  · intro t i
    refine ⟨?_, ?_, ?_⟩
    · intro h
      rw [tableLookup, List.get?_eq_get h]
      rfl
    · intro h
      rw [tableLookup, List.get?_eq_none.2 h]
      rfl
    · rintro rfl
      rfl
  · intro C _ _ t color pg
    rfl
  · intro t consider pg
    have key : ∀ (l : List (Finset H)) (acc : Nat),
        l.foldl (fun acc g =>
          if consider g then u64add acc (tableLookup t g.card) else acc) acc =
        ((l.filter (fun g => consider g)).map
          (fun g => tableLookup t g.card)).foldl u64add acc := by
      intro l
      induction l with
      | nil => intro acc; rfl
      | cons g l ih =>
        intro acc
        by_cases hg : consider g
        · simp only [List.foldl_cons, List.filter_cons, hg, if_true,
            List.map_cons]
          exact ih _
        · simp only [List.foldl_cons, List.filter_cons, hg, if_false,
            Bool.false_eq_true]
          exact ih _
    exact key pg 0

/-- Witness for C6: in-range, clamped, and empty-table lookups. -/
theorem claim6_witness :
    tableLookup [5, 7] 1 = ([5, 7] : List Nat).get ⟨1, by decide⟩ ∧
    tableLookup [5, 7] 5 = ([5, 7] : List Nat).getLast?.getD 0 ∧
    tableLookup [] 5 = 0 :=
  ⟨((@claim6_table_lookups Nat _).1 [5, 7] 1).1 (by decide),
    ((@claim6_table_lookups Nat _).1 [5, 7] 5).2.1 (by decide),
    ((@claim6_table_lookups Nat _).1 [] 5).2.2 rfl⟩

/-- C9: with the same tile set, the same `neighbors`, and the same
symmetric `connects`, two boards whose `tiles()` enumerations differ in
order yield the same family of groups (as sets); and on identical
inputs, grouping, gravity, and the standard scoring are deterministic
(equal inputs give equal outputs). -/
theorem claim9_order_independence :
    (∀ B1 B2 : BoardG H, B1.tiles.Nodup → B2.tiles.Nodup →
      B1.tiles.toFinset = B2.tiles.toFinset →
      B1.neighbors = B2.neighbors → B1.connects = B2.connects →
      (∀ x y, x ∈ B1.neighbors y ↔ y ∈ B1.neighbors x) →
      (∀ x y, B1.connects x y = B1.connects y x) →
      (owanimo_grouper B1).toFinset = (owanimo_grouper B2).toFinset) ∧
    (∀ B1 B2 : BoardG H, B1 = B2 → owanimo_grouper B1 = owanimo_grouper B2) ∧
    (∀ (isAir : H → Bool) (cols1 cols2 : List (List H)), cols1 = cols2 →
      fall isAir cols1 = fall isAir cols2) ∧
    (∀ (S : Type) (pc pb cp cb gb : ScorerFn S H) (b1 b2 : S)
        (pg1 pg2 : List (Finset H)), b1 = b2 → pg1 = pg2 →
      standardScore pc pb cp cb gb b1 pg1 = standardScore pc pb cp cb gb b2 pg2) :=
  ⟨fun B1 B2 h1 h2 h3 h4 h5 h6 h7 =>
      grouper_perm_invariant B1 B2 h1 h2 h3 h4 h5 h6 h7,
    fun _ _ h => by rw [h],
    fun _ _ _ h => by rw [h],
    fun _ _ _ _ _ _ _ _ _ _ hb hp => by rw [hb, hp]⟩

/-- Witness for C9: the three-tile path board grouped in both
enumeration orders. -/
theorem claim9_witness :
    (owanimo_grouper boardW3).toFinset = (owanimo_grouper boardW3r).toFinset :=
  claim9_order_independence.1 boardW3 boardW3r (by decide) (by decide)
    (by decide) rfl rfl (by decide) (by decide)

end Owanimo
